import Mathlib

/-!
# Verification of the Caesar cipher engine (`src/Caeser_Cypher.py`)

Shallow embedding of the cipher core: `shift_char`, `encrypt_text`,
`decrypt_text` and `brute_force`. Python characters are modelled as their
Unicode code points (`ord` values, a `Nat`); a Python string is the list of
code points of its characters. Python integers are `Int`, and Python's `%`
with the positive divisor 26 agrees with `Int.emod`, which also returns a
result in `[0, 25]` there.
-/

namespace CaesarCypher

/-- `ALPHABET_SIZE = 26` (module-level constant of the source). -/
def ALPHABET_SIZE : Int := 26

/-- Embedding of `shift_char` (source lines 49-56).
`'A'` is 65, `'Z'` is 90, `'a'` is 97, `'z'` is 122; `ord`/`chr` are the
identity on code points in this model. -/
def shift_char (ch : Nat) (shift : Int) : Nat :=
  if 65 ≤ ch ∧ ch ≤ 90 then
    let idx : Int := (ch : Int) - 65
    ((idx + shift) % ALPHABET_SIZE + 65).toNat
  else if 97 ≤ ch ∧ ch ≤ 122 then
    let idx : Int := (ch : Int) - 97
    ((idx + shift) % ALPHABET_SIZE + 97).toNat
  else
    ch

/-- Embedding of `encrypt_text` (source lines 58-59):
`''.join(shift_char(ch, shift) for ch in text)`. -/
def encrypt_text (text : List Nat) (shift : Int) : List Nat :=
  text.map (fun ch => shift_char ch shift)

/-- Embedding of `decrypt_text` (source lines 61-62):
`encrypt_text(text, -shift)`. -/
def decrypt_text (text : List Nat) (shift : Int) : List Nat :=
  encrypt_text text (-shift)

/-- Code points of a Lean string literal, used to transcribe the Python
string literals of the source. -/
def toCodes (s : String) : List Nat :=
  s.toList.map Char.toNat

/-- The decimal digit characters of `n` (most significant first), as code
points. -/
def decimalRepr (n : Nat) : List Nat :=
  (Nat.toDigits 10 n).map Char.toNat

/-- Embedding of the f-string field `{s:2d}`: the decimal representation of
`s`, right-aligned with spaces (code point 32) to a minimum width of 2. -/
def format2d (n : Nat) : List Nat :=
  List.replicate (2 - (decimalRepr n).length) 32 ++ decimalRepr n

/-- Embedding of one line built by `brute_force`:
`f"Shift {s:2d}: {decrypt_text(text, s)}"` (source line 67). -/
def brute_line (text : List Nat) (s : Nat) : List Nat :=
  toCodes "Shift " ++ format2d s ++ toCodes ": " ++ decrypt_text text (s : Int)

/-- Embedding of `brute_force` (source lines 64-68): one line per
`s in range(ALPHABET_SIZE)`, joined by `'\n'` (code point 10). -/
def brute_force (text : List Nat) : List Nat :=
  List.intercalate [10] ((List.range ALPHABET_SIZE.toNat).map (brute_line text))

/-! ## Fallible versions

Python's `chr` raises `ValueError` outside `[0, 0x10FFFF]`; every other
operation in the engine (`ord`, `%` by the constant 26, string
concatenation, `range`, `join`) is total on the values that reach it. The
following versions of the engine make the only fallible primitive, `chr`,
return `Option`, and propagate failure; proving them equal to `some` of the
total versions shows the engine never raises. -/

/-- Python `chr`: succeeds exactly on code points in `[0, 0x10FFFF]`. -/
def chr? (n : Int) : Option Nat :=
  if 0 ≤ n ∧ n ≤ 1114111 then some n.toNat else none

/-- `shift_char` with the fallible `chr`. -/
def shift_char? (ch : Nat) (shift : Int) : Option Nat :=
  if 65 ≤ ch ∧ ch ≤ 90 then
    let idx : Int := (ch : Int) - 65
    chr? ((idx + shift) % ALPHABET_SIZE + 65)
  else if 97 ≤ ch ∧ ch ≤ 122 then
    let idx : Int := (ch : Int) - 97
    chr? ((idx + shift) % ALPHABET_SIZE + 97)
  else
    some ch

/-- Apply `f` to each element in order, propagating the first failure
(the evaluation order of Python's generator expressions and loops). -/
def traverseOpt {α β : Type} (f : α → Option β) : List α → Option (List β)
  | [] => some []
  | a :: l => (f a).bind (fun b => (traverseOpt f l).map (fun bs => b :: bs))

/-- `encrypt_text` with the fallible `shift_char?`. -/
def encrypt_text? (text : List Nat) (shift : Int) : Option (List Nat) :=
  traverseOpt (fun ch => shift_char? ch shift) text

/-- `decrypt_text` with the fallible `encrypt_text?`. -/
def decrypt_text? (text : List Nat) (shift : Int) : Option (List Nat) :=
  encrypt_text? text (-shift)

/-- `brute_force` with the fallible `decrypt_text?`. -/
def brute_force? (text : List Nat) : Option (List Nat) :=
  (traverseOpt
      (fun (s : Nat) => (decrypt_text? text (s : Int)).map
        (fun d => toCodes "Shift " ++ format2d s ++ toCodes ": " ++ d))
      (List.range ALPHABET_SIZE.toNat)).map
    (List.intercalate [10])

/-! ## Definitions taken from the spec's words (for the brute-force format)

The spec describes `bruteForce` as: 26 lines, one per candidate shift `s`
in `[0, 25]`, each formatted as `"Shift {s}: {decrypt(text, s)}"` with `s`
right-aligned to at least 2 digits, joined by newline characters with no
trailing newline. These definitions transcribe that sentence, to be
compared with the embedding `brute_force` above. -/

/-- Modelled from the spec: right-align `ds` with spaces to width at least
`w`. -/
def rightAlign (w : Nat) (ds : List Nat) : List Nat :=
  List.replicate (w - ds.length) 32 ++ ds

/-- Modelled from the spec: the line `"Shift {s}: {decrypt(text, s)}"`,
with `s` right-aligned to at least 2 digits. -/
def bruteLineSpec (text : List Nat) (s : Nat) : List Nat :=
  toCodes "Shift " ++ rightAlign 2 (decimalRepr s) ++ toCodes ": " ++
    decrypt_text text (s : Int)

/-- Modelled from the spec: lines joined by single newline characters,
with no trailing newline. -/
def joinLines : List (List Nat) → List Nat
  | [] => []
  | [l] => l
  | l :: ls => l ++ [10] ++ joinLines ls

/-- Modelled from the spec: 26 lines, one per candidate shift in `[0, 25]`,
in order, joined by newlines. -/
def bruteForceSpec (text : List Nat) : List Nat :=
  joinLines ((List.range 26).map (bruteLineSpec text))

/-! ## Per-character lemmas about `shift_char` -/

theorem shift_char_of_upper (ch : Nat) (s : Int) (h1 : 65 ≤ ch) (h2 : ch ≤ 90) :
    shift_char ch s = (((ch : Int) - 65 + s) % 26 + 65).toNat := by
  simp [shift_char, ALPHABET_SIZE, h1, h2]

theorem shift_char_of_lower (ch : Nat) (s : Int) (h1 : 97 ≤ ch) (h2 : ch ≤ 122) :
    shift_char ch s = (((ch : Int) - 97 + s) % 26 + 97).toNat := by
  have hno : ¬(65 ≤ ch ∧ ch ≤ 90) := by omega
  simp [shift_char, ALPHABET_SIZE, hno, h1, h2]

theorem shift_char_of_other (ch : Nat) (s : Int)
    (h1 : ¬(65 ≤ ch ∧ ch ≤ 90)) (h2 : ¬(97 ≤ ch ∧ ch ≤ 122)) :
    shift_char ch s = ch := by
  simp [shift_char, h1, h2]

theorem shift_char_upper_range (ch : Nat) (s : Int) (h1 : 65 ≤ ch) (h2 : ch ≤ 90) :
    65 ≤ shift_char ch s ∧ shift_char ch s ≤ 90 := by
  rw [shift_char_of_upper ch s h1 h2]
  omega

theorem shift_char_lower_range (ch : Nat) (s : Int) (h1 : 97 ≤ ch) (h2 : ch ≤ 122) :
    97 ≤ shift_char ch s ∧ shift_char ch s ≤ 122 := by
  rw [shift_char_of_lower ch s h1 h2]
  omega

theorem shift_char_left_inv (ch : Nat) (s : Int) :
    shift_char (shift_char ch s) (-s) = ch := by
  by_cases h1 : 65 ≤ ch ∧ ch ≤ 90
  · rw [shift_char_of_upper ch s h1.1 h1.2]
    rw [shift_char_of_upper _ (-s) (by omega) (by omega)]
    omega
  · by_cases h2 : 97 ≤ ch ∧ ch ≤ 122
    · rw [shift_char_of_lower ch s h2.1 h2.2]
      rw [shift_char_of_lower _ (-s) (by omega) (by omega)]
      omega
    · rw [shift_char_of_other ch s h1 h2, shift_char_of_other ch (-s) h1 h2]

theorem shift_char_zero (ch : Nat) : shift_char ch 0 = ch := by
  by_cases h1 : 65 ≤ ch ∧ ch ≤ 90
  · rw [shift_char_of_upper ch 0 h1.1 h1.2]; omega
  · by_cases h2 : 97 ≤ ch ∧ ch ≤ 122
    · rw [shift_char_of_lower ch 0 h2.1 h2.2]; omega
    · exact shift_char_of_other ch 0 h1 h2

theorem shift_char_emod (ch : Nat) (s : Int) :
    shift_char ch s = shift_char ch (s % 26) := by
  by_cases h1 : 65 ≤ ch ∧ ch ≤ 90
  · rw [shift_char_of_upper ch s h1.1 h1.2, shift_char_of_upper ch (s % 26) h1.1 h1.2]
    omega
  · by_cases h2 : 97 ≤ ch ∧ ch ≤ 122
    · rw [shift_char_of_lower ch s h2.1 h2.2, shift_char_of_lower ch (s % 26) h2.1 h2.2]
      omega
    · rw [shift_char_of_other ch s h1 h2, shift_char_of_other ch (s % 26) h1 h2]

/-! ## Lifting lemmas -/

theorem shift_char?_eq (ch : Nat) (s : Int) :
    shift_char? ch s = some (shift_char ch s) := by
  simp only [shift_char?, shift_char, chr?, ALPHABET_SIZE]
  split_ifs <;> first | rfl | omega

theorem traverseOpt_eq_some {α β : Type} (f : α → Option β) (g : α → β) (l : List α)
    (h : ∀ a ∈ l, f a = some (g a)) : traverseOpt f l = some (l.map g) := by
  induction l with
  | nil => rfl
  | cons a l ih =>
    rw [traverseOpt, h a (List.mem_cons_self a l),
      ih (fun b hb => h b (List.mem_cons_of_mem a hb))]
    rfl

theorem encrypt_fixed_of_nonletter (text : List Nat) (s : Int)
    (h : ∀ ch ∈ text, ¬(65 ≤ ch ∧ ch ≤ 90) ∧ ¬(97 ≤ ch ∧ ch ≤ 122)) :
    encrypt_text text s = text := by
  unfold encrypt_text
  have hid : ∀ ch ∈ text, shift_char ch s = id ch :=
    fun ch hch => shift_char_of_other ch s (h ch hch).1 (h ch hch).2
  rw [List.map_congr_left hid, List.map_id]

theorem intercalate_eq_joinLines (ls : List (List Nat)) :
    List.intercalate [10] ls = joinLines ls := by
  induction ls with
  | nil => rfl
  | cons a ls ih =>
    cases ls with
    | nil => simp [List.intercalate, joinLines]
    | cons b ls2 =>
      show List.intercalate [10] (a :: b :: ls2) = a ++ [10] ++ joinLines (b :: ls2)
      rw [← ih]
      simp [List.intercalate, List.intersperse_cons_cons]

theorem brute_line_eq_spec (text : List Nat) (s : Nat) :
    brute_line text s = bruteLineSpec text s := rfl

/-! ## The claims -/

/-- Claim C1: for every text string `T` and every integer shift `s`,
`decrypt(encrypt(T, s), s) = T` (round-trip law). -/
theorem decrypt_encrypt_round_trip (text : List Nat) (s : Int) :
    decrypt_text (encrypt_text text s) s = text := by
  unfold decrypt_text encrypt_text
  rw [List.map_map]
  have h : ∀ a ∈ text,
      ((fun ch => shift_char ch (-s)) ∘ fun ch => shift_char ch s) a = id a :=
    fun a _ => shift_char_left_inv a s
  rw [List.map_congr_left h, List.map_id]

/-- Claim C2: `shift_char` sends an uppercase letter to the uppercase letter
at position `(index + shift) % 26`, a lowercase letter to its symmetric
image, and leaves any other character unchanged; the reduced position is a
natural number at most 25 (hence non-negative), for any integer shift,
negative or exceeding 25. -/
theorem shift_char_functional_spec (ch : Nat) (s : Int) :
    (65 ≤ ch → ch ≤ 90 → ∃ p : Nat, p ≤ 25 ∧
      (p : Int) = ((ch : Int) - 65 + s) % 26 ∧ shift_char ch s = 65 + p) ∧
    (97 ≤ ch → ch ≤ 122 → ∃ p : Nat, p ≤ 25 ∧
      (p : Int) = ((ch : Int) - 97 + s) % 26 ∧ shift_char ch s = 97 + p) ∧
    (¬(65 ≤ ch ∧ ch ≤ 90) → ¬(97 ≤ ch ∧ ch ≤ 122) → shift_char ch s = ch) := by
  refine ⟨fun h1 h2 => ?_, fun h1 h2 => ?_, shift_char_of_other ch s⟩
  · refine ⟨(((ch : Int) - 65 + s) % 26).toNat, ?_, ?_, ?_⟩
    · omega
    · omega
    · rw [shift_char_of_upper ch s h1 h2]; omega
  · refine ⟨(((ch : Int) - 97 + s) % 26).toNat, ?_, ?_, ?_⟩
    · omega
    · omega
    · rw [shift_char_of_lower ch s h1 h2]; omega

theorem shift_char_functional_spec_witness : shift_char 66 (-3) = 89 := by
  obtain ⟨p, hp, hpe, h⟩ := (shift_char_functional_spec 66 (-3)).1 (by decide) (by decide)
  omega

/-- Claim C3: for every text string `T` and every integer `s`,
`encrypt(T, s) = encrypt(T, s mod 26)` (periodicity in the shift, with
Python's non-negative `mod`). -/
theorem encrypt_periodicity (text : List Nat) (s : Int) :
    encrypt_text text s = encrypt_text text (s % 26) := by
  unfold encrypt_text
  exact List.map_congr_left fun a _ => shift_char_emod a s

/-- Claim C4: for every text string `T`, `encrypt(T, 0) = T` (shift 0 is the
identity transform). -/
theorem encrypt_zero_identity (text : List Nat) :
    encrypt_text text 0 = text := by
  unfold encrypt_text
  have h : ∀ a ∈ text, shift_char a 0 = id a := fun a _ => shift_char_zero a
  rw [List.map_congr_left h, List.map_id]

/-- Claim C5: `encrypt` applies `shift_char` to each character in order:
the output has the length of the input, position `i` of the output is
`shift_char` of position `i` of the input, and a non-letter character at
position `i` appears unchanged at position `i` of the output. -/
theorem encrypt_pointwise (text : List Nat) (s : Int) :
    (encrypt_text text s).length = text.length ∧
    (∀ i : Nat, (encrypt_text text s)[i]? =
      (text[i]?).map fun ch => shift_char ch s) ∧
    (∀ (i ch : Nat), text[i]? = some ch → ¬(65 ≤ ch ∧ ch ≤ 90) →
      ¬(97 ≤ ch ∧ ch ≤ 122) → (encrypt_text text s)[i]? = some ch) := by
  refine ⟨List.length_map text _, fun i => List.getElem?_map _ text i,
    fun i ch hi h1 h2 => ?_⟩
  rw [encrypt_text, List.getElem?_map, hi]
  simp [shift_char_of_other ch s h1 h2]

theorem encrypt_pointwise_witness :
    (encrypt_text (toCodes "A B") 5)[1]? = some 32 :=
  (encrypt_pointwise (toCodes "A B") 5).2.2 1 32 (by decide) (by decide) (by decide)

/-- Claim C6: for every text string `T` and every integer shift `s`,
`decrypt(T, s) = encrypt(T, -s)`. -/
theorem decrypt_eq_encrypt_neg (text : List Nat) (s : Int) :
    decrypt_text text s = encrypt_text text (-s) := rfl

/-- Claim C7: `brute_force` produces exactly the 26 lines for shifts 0 to
25 in order, each reading `Shift {s}: {decrypt(text, s)}` with the shift
right-aligned to at least 2 digits, joined by single newline characters
with no trailing newline (the spec-transcribed `bruteForceSpec`); and on
input `"Khoor"` one of the 26 lines is `"Shift  3: Hello"`. -/
theorem brute_force_format :
    (∀ text, brute_force text = bruteForceSpec text) ∧
    (∀ text, ((List.range 26).map (bruteLineSpec text)).length = 26) ∧
    (∀ text s, s < 26 → ((List.range 26).map (bruteLineSpec text))[s]? =
      some (bruteLineSpec text s)) ∧
    toCodes "Shift  3: Hello" ∈ (List.range 26).map (bruteLineSpec (toCodes "Khoor")) := by
  refine ⟨fun text => ?_, fun text => by simp, fun text s hs => ?_, by decide⟩
  · unfold brute_force bruteForceSpec
    rw [intercalate_eq_joinLines]
    have h : ALPHABET_SIZE.toNat = 26 := rfl
    rw [h, List.map_congr_left (fun a _ => brute_line_eq_spec text a)]
  · rw [List.getElem?_map, List.getElem?_range hs]
    rfl

theorem brute_force_format_witness :
    ((List.range 26).map (bruteLineSpec []))[3]? = some (bruteLineSpec [] 3) :=
  brute_force_format.2.2.1 [] 3 (by decide)

/-- Claim C8: the engine is total — with Python's only fallible primitive
`chr` modelled as `Option`-valued, `encrypt`, `decrypt` and `brute_force`
always succeed, returning exactly the value of the total embedding (they
are pure functions, so determinism and absence of side effects hold by
construction). -/
theorem engine_total :
    (∀ text s, encrypt_text? text s = some (encrypt_text text s)) ∧
    (∀ text s, decrypt_text? text s = some (decrypt_text text s)) ∧
    (∀ text, brute_force? text = some (brute_force text)) := by
  have henc : ∀ text s, encrypt_text? text s = some (encrypt_text text s) := by
    intro text s
    unfold encrypt_text? encrypt_text
    exact traverseOpt_eq_some _ _ text (fun a _ => shift_char?_eq a s)
  refine ⟨henc, fun text s => henc text (-s), fun text => ?_⟩
  unfold brute_force? brute_force
  rw [traverseOpt_eq_some _ (fun s => brute_line text s) _ ?_]
  · rfl
  · intro a _
    rw [decrypt_text?, henc]
    rfl

/-- Claim C9: case preservation — `shift_char` maps uppercase letters to
uppercase letters and lowercase letters to lowercase letters, for every
integer shift, and every non-alphabetic character passes through
unchanged. -/
theorem case_preservation (ch : Nat) (s : Int) :
    (65 ≤ ch → ch ≤ 90 → 65 ≤ shift_char ch s ∧ shift_char ch s ≤ 90) ∧
    (97 ≤ ch → ch ≤ 122 → 97 ≤ shift_char ch s ∧ shift_char ch s ≤ 122) ∧
    (¬(65 ≤ ch ∧ ch ≤ 90) → ¬(97 ≤ ch ∧ ch ≤ 122) → shift_char ch s = ch) :=
  ⟨fun h1 h2 => shift_char_upper_range ch s h1 h2,
   fun h1 h2 => shift_char_lower_range ch s h1 h2,
   shift_char_of_other ch s⟩

theorem case_preservation_witness :
    (65 ≤ shift_char 72 7 ∧ shift_char 72 7 ≤ 90) ∧
    (97 ≤ shift_char 104 7 ∧ shift_char 104 7 ≤ 122) ∧
    shift_char 33 7 = 33 :=
  ⟨(case_preservation 72 7).1 (by decide) (by decide),
   (case_preservation 104 7).2.1 (by decide) (by decide),
   (case_preservation 33 7).2.2 (by decide) (by decide)⟩

/-- Claim C10: only the 52 ASCII Latin letters are ever transformed: every
code point outside `[65, 90]` and `[97, 122]` — including accented letters
such as `'É'` (201) and `'ä'` (228) — is fixed by `shift_char`, and such
characters are copied verbatim, at their positions, by `encrypt` and
`decrypt`; a text of only such characters passes through `encrypt`,
`decrypt` and each `brute_force` line payload entirely unchanged. -/
theorem ascii_letters_only (s : Int) :
    (∀ ch, ¬(65 ≤ ch ∧ ch ≤ 90) → ¬(97 ≤ ch ∧ ch ≤ 122) → shift_char ch s = ch) ∧
    (∀ ch, shift_char ch s ≠ ch → (65 ≤ ch ∧ ch ≤ 90) ∨ (97 ≤ ch ∧ ch ≤ 122)) ∧
    shift_char 201 s = 201 ∧ shift_char 228 s = 228 ∧
    (∀ (text : List Nat) (i ch : Nat), text[i]? = some ch →
      ¬(65 ≤ ch ∧ ch ≤ 90) → ¬(97 ≤ ch ∧ ch ≤ 122) →
      (encrypt_text text s)[i]? = some ch ∧
        (decrypt_text text s)[i]? = some ch) ∧
    (∀ text, (∀ ch ∈ text, ¬(65 ≤ ch ∧ ch ≤ 90) ∧ ¬(97 ≤ ch ∧ ch ≤ 122)) →
      encrypt_text text s = text ∧ decrypt_text text s = text) := by
  have hfix : ∀ ch, ¬(65 ≤ ch ∧ ch ≤ 90) → ¬(97 ≤ ch ∧ ch ≤ 122) →
      shift_char ch s = ch := fun ch h1 h2 => shift_char_of_other ch s h1 h2
  have hfixneg : ∀ ch, ¬(65 ≤ ch ∧ ch ≤ 90) → ¬(97 ≤ ch ∧ ch ≤ 122) →
      shift_char ch (-s) = ch := fun ch h1 h2 => shift_char_of_other ch (-s) h1 h2
  refine ⟨hfix, fun ch hne => ?_, hfix 201 (by omega) (by omega),
    hfix 228 (by omega) (by omega), fun text i ch hi h1 h2 => ⟨?_, ?_⟩,
    fun text h => ⟨encrypt_fixed_of_nonletter text s h,
      encrypt_fixed_of_nonletter text (-s)
        (fun ch hch => h ch hch)⟩⟩
  · by_cases h1 : 65 ≤ ch ∧ ch ≤ 90
    · exact Or.inl h1
    · by_cases h2 : 97 ≤ ch ∧ ch ≤ 122
      · exact Or.inr h2
      · exact absurd (hfix ch h1 h2) hne
  · rw [encrypt_text, List.getElem?_map, hi]
    simp [hfix ch h1 h2]
  · rw [decrypt_text, encrypt_text, List.getElem?_map, hi]
    simp [hfixneg ch h1 h2]

theorem ascii_letters_only_witness : shift_char 233 4 = 233 :=
  (ascii_letters_only 4).1 233 (by decide) (by decide)

end CaesarCypher
